import Mathlib

/-!
Verification development for the safe-continual repository.

The repository trains a PPO policy with an Elastic Weight Consolidation
(EWC) regularizer against a non-stationary HalfCheetah velocity
environment.  The two source files embedded here are

* `safepo/single_agent/ppo_ewc_lambda.py` — the training loop (`main`),
  the Fisher estimator (`compute_fisher_info`) and the anchor snapshot
  (`save_old_params`);
* `safety_gymnasium/tasks/safe_velocity/safety_half_cheetah_velocity_v2.py`
  — the environment's `step` / `check_task` / `change_task` task cycle.

Real tensors are modelled as rational-valued entities; machine floats are
read as exact rationals, which is the conventional reading for the
order-theoretic and algebraic properties proved here.
-/

namespace SafeContinual

/-! ### The rollout Buffer (modelled from the spec) and the epoch tail -/

/-- Modelled from the spec: the rollout Buffer
(`safepo.common.buffer.VectorizedOnPolicyBuffer`, whose code is not part of
the two embedded source files; only its caller `main` is).  Per the spec it
holds a fixed count of transitions for one epoch; `store` writes one
transition at the write position; `get` drains the entire epoch's data and
implicitly clears the storage for the next epoch, i.e. it resets the write
position so that the next epoch's stores overwrite from the start — the
stored values persist until then (the spec's Fisher estimation reads
"whatever data currently sits in the just-drained Buffer"). -/
structure Buffer (τ : Type) : Type where
  size : ℕ
  data : ℕ → τ
  wpos : ℕ

/-- `buffer.store(...)`: write one transition at the write position. -/
def Buffer.store {τ : Type} (b : Buffer τ) (t : τ) : Buffer τ :=
  { b with data := fun i => if i = b.wpos then t else b.data i, wpos := b.wpos + 1 }

/-- `buffer.get()`: yield the entire epoch's data and reset the write
position for the next epoch. -/
def Buffer.get {τ : Type} (b : Buffer τ) : List τ × Buffer τ :=
  ((List.range b.size).map b.data, { b with wpos := 0 })

/-- The end-of-epoch tail of `main` (lines 313-458) as far as the Buffer is
concerned: the PPO update drains the Buffer once (line 314,
`data = buffer.get()`); no further `store` happens during the update; then,
when the Regularizer's switch counter has reached `steps_per_task`
(`trigger`), the Fisher estimate is computed from a second drain (line 449,
`compute_fisher_info(buffer.get(), policy)`).  Returns the batch consumed
by the update and, when the switch fires, the batch handed to the Fisher
estimator. -/
def epoch_tail {τ : Type} (b : Buffer τ) (trigger : Bool) :
    List τ × Option (List τ) :=
  let drained := b.get
  if trigger then (drained.1, some drained.2.get.1) else (drained.1, none)

/-! ### The Regularizer's per-epoch switch clock -/

/-- State of the continual-learning Regularizer's task clock in `main`:
`current_task_index` and `steps_since_change` (lines 85-86), plus a ghost
counter `switches` recording how many times the task index has advanced. -/
structure RegState : Type where
  current_task_index : ℕ
  steps_since_change : ℕ
  switches : ℕ
deriving DecidableEq

/-- Lines 444-458 of `main`, executed once at the end of every epoch: add
`steps_per_epoch` (`S`) to the switch counter; if it has reached
`steps_per_task` (`T`), advance the task index circularly through the
`num_tasks` tasks, reset the counter to 0 and count the switch (the
Fisher/anchor store that happens at a switch is modelled separately). -/
def reg_epoch_end (S T num_tasks : ℕ) (r : RegState) : RegState :=
  let c := r.steps_since_change + S
  if T ≤ c then
    { current_task_index := (r.current_task_index + 1) % num_tasks,
      steps_since_change := 0,
      switches := r.switches + 1 }
  else
    { r with steps_since_change := c }

/-- The Regularizer clock after `N` completed epochs, from the initial
state (task index 0, counter 0). -/
def reg_run (S T num_tasks N : ℕ) : RegState :=
  (reg_epoch_end S T num_tasks)^[N] ⟨0, 0, 0⟩

/-! ### The EWC penalty (`ewc_loss`, lines 359-367 of `main`) -/

/-- A named collection of actor-parameter scalars: parameter identifiers
(the `name` of `named_parameters()`) are numbered, each carrying one
rational value; a whole tensor is a family of such entries. -/
def PMap : Type := ℕ → ℚ

/-- Lines 359-367 of `main`: `ewc_loss` starts from `0.`; for every slot of
`zip(fisher_matrices, old_params_list)` whose Fisher record is live
(`fisher_info is not None` — in `main` the paired anchor is stored at the
same instant, so a live Fisher always has a live anchor and the remaining
match arms are never reached), every named actor parameter contributes
`(fisher[name] * (param - old_params[name])^2).sum()`.  `names` enumerates
the parameter entries of `policy.actor.named_parameters()` and `θ` is the
current parameter value. -/
def ewc_penalty (fms ops : List (Option PMap)) (names : List ℕ) (θ : PMap) : ℚ :=
  ((fms.zip ops).map (fun pr =>
    match pr.1, pr.2 with
    | some f, some o => (names.map (fun n => f n * (θ n - o n) ^ 2)).sum
    | _, _ => 0)).sum

/-! ### Episode/epoch boundary handling in the rollout loop (lines 200-236) -/

/-- Lines 203-217 of `main`: the bootstrap value handed to
`buffer.finish_path` for one environment slot at a boundary step.
`last_value` starts at zero; when the slot did not terminate (`done`
false), `epoch_end` substitutes the critic's value `v_cur` at the current
observation and afterwards `time_out` overwrites it with the critic's value
`v_final` at the environment-supplied final observation (a zero vector is
substituted upstream, lines 177-188, when that observation is absent).
Called only at steps where `epoch_end ∨ done ∨ time_out` holds. -/
def boundary_value (epoch_end done time_out : Bool) (v_cur v_final : ℚ) : ℚ :=
  let last0 : ℚ := 0
  if !done then
    let last1 := if epoch_end then v_cur else last0
    if time_out then v_final else last1
  else last0

/-- Lines 200-202 and 234-236 of `main`: over one epoch of `n` rollout
steps, `buffer.finish_path` is invoked for a slot at step `i` exactly when
`i` is the last step of the epoch (`epoch_end`, i.e. `i = n - 1`) or the
slot reports `done i` (terminated) or `time_out i` (truncated) there.
`finish_calls` counts those invocations for one slot across the epoch. -/
def finish_calls (n : ℕ) (done time_out : ℕ → Bool) : ℕ :=
  (List.range n).countP (fun i => decide (i = n - 1) || done i || time_out i)

/-! ### The PPO update's pass loop with KL early stop (lines 332-400) -/

/-- Lines 332-400 of `main`: the update loop runs up to `learning_iters`
passes.  One `pass_step` is the full minibatch loop of one pass (it mutates
the policy parameters; its internals are irrelevant to the control flow);
`klOf` is the mean KL divergence between the pre-update distribution over
the whole batch (`old_distribution`, computed once at line 315) and the
current distribution over the whole batch, evaluated once after the pass
(lines 390-396, not per minibatch); `update_counts` is incremented after
the KL check is computed and the loop breaks when `kl > target_kl`.
Returns the final state together with `update_counts`. -/
def run_passes {σ : Type} (pass_step : σ → σ) (klOf : σ → ℚ) (target : ℚ) :
    ℕ → σ → σ × ℕ
  | 0, s => (s, 0)
  | n + 1, s =>
    let s1 := pass_step s
    if target < klOf s1 then (s1, 1)
    else
      let r := run_passes pass_step klOf target n s1
      (r.1, r.2 + 1)

/-! ### The clipped-surrogate actor loss (lines 352-356) -/

/-- `torch.clamp(x, lo, hi)` for rationals (`lo ≤ hi` in all uses here). -/
def clampQ (x lo hi : ℚ) : ℚ := max lo (min x hi)

/-- The mean of a list of rationals (`tensor.mean()`; the empty mean is 0,
matching the convention `0 / 0 = 0` of rational division). -/
def meanQ (l : List ℚ) : ℚ := l.sum / l.length

/-- Lines 352-356 of `main`, with the elementwise likelihood quotient
`rs` given as input (in the source it is `torch.exp(log_prob - log_prob_b)`,
hence an arbitrary positive value): the two surrogate tensors are
`r * adv_b` and `torch.clamp(r, 0.8, 1.2) * adv_b`, and
`loss_pi = -torch.min(surr1, surr2).mean()`. -/
def actor_loss (rs advs : List ℚ) : ℚ :=
  let surr1 := List.zipWith (fun r a => r * a) rs advs;
  let surr2 := List.zipWith (fun r a => clampQ r (4 / 5) (6 / 5) * a) rs advs;
  -(meanQ (List.zipWith min surr1 surr2))

/-- The spec's formula for the actor loss, written from its words: "the
negated mean over the minibatch of min(ratio·advantage,
clip(ratio, 0.8, 1.2)·advantage) computed pointwise". -/
def actor_loss_spec (rs advs : List ℚ) : ℚ :=
  -(meanQ (List.zipWith (fun r a => min (r * a) (clampQ r (4 / 5) (6 / 5) * a)) rs advs))

/-! ### The environment's task cycle and step
(`safety_half_cheetah_velocity_v2.py`) -/

/-- `TASK_CYCLE` of the environment module (line 23). -/
def TASK_CYCLE : List String := ["nominal", "eighteen", "nominal", "sixteen", "twenty"]

/-- The `MULTIPLIERS` dictionary (lines 24-29); it is only ever indexed by
an element of `TASK_CYCLE`, so the final arm is unreachable. -/
def MULTIPLIERS (name : String) : ℚ :=
  if name = "nominal" then 1
  else if name = "sixteen" then 16 / 14
  else if name = "eighteen" then 18 / 14
  else if name = "twenty" then 20 / 14
  else 0

/-- `TASK_LENGTH = 1_000_000 / 10` (line 30); the step counter is an
integer, so the float threshold acts as the natural number 100000. -/
def TASK_LENGTH : ℕ := 100000

/-- `NOMINAL_MASSES` (line 31). -/
def NOMINAL_MASSES : List ℚ :=
  [0, 6.25020921, 1.54351464, 1.5874477, 1.09539749, 1.43807531, 1.20083682, 0.88451883]

/-- The environment-side task-cycle state of
`SafetyHalfCheetahVelocityEnv`: `current_task` and `steps_since_change`
(lines 37-38), the body-mass vector `self.model.body_mass`, and a ghost
counter `resets` recording every forced full `self.reset()`. -/
structure EnvState : Type where
  current_task : ℕ
  steps_since_change : ℕ
  body_mass : List ℚ
  resets : ℕ
deriving DecidableEq

/-- `change_task` (lines 92-99): look up the new task's name, rescale the
body-mass vector to the nominal masses times the new variant's multiplier,
and force a full environment reset. -/
def change_task (s : EnvState) : EnvState :=
  { s with
    body_mass := NOMINAL_MASSES.map (fun m => m * MULTIPLIERS (TASK_CYCLE.getD s.current_task "")),
    resets := s.resets + 1 }

/-- `check_task` (lines 86-90): when the step counter strictly exceeds
`TASK_LENGTH`, reset it to 0, advance the variant index circularly through
`TASK_CYCLE`, and apply `change_task`. -/
def check_task (s : EnvState) : EnvState :=
  if TASK_LENGTH < s.steps_since_change then
    change_task
      { s with
        steps_since_change := 0,
        current_task := (s.current_task + 1) % TASK_CYCLE.length }
  else s

/-- The task-cycle effect of one `step` call (lines 81-84): `check_task`
runs first, then `steps_since_change` is incremented. -/
def env_cycle_step (s : EnvState) : EnvState :=
  let s1 := check_task s
  { s1 with steps_since_change := s1.steps_since_change + 1 }

/-- The outward-facing outcome of one environment `step` call that the
training loop consumes: reward, cost and the two episode-boundary flags. -/
structure StepResult : Type where
  reward : ℚ
  cost : ℚ
  terminated : Bool
  truncated : Bool
deriving DecidableEq

/-- `self._velocity_threshold = 3.2096` (line 43). -/
def velocity_threshold : ℚ := 3.2096

/-- `HalfCheetahEnv.control_cost`: `ctrl_cost_weight * sum(action ** 2)`
with the inherited weight 0.1. -/
def control_cost (action : List ℚ) : ℚ :=
  (1 / 10) * (action.map (fun a => a ^ 2)).sum

/-- `SafetyHalfCheetahVelocityEnv.step` (lines 46-84): the x-velocity is
`(x_after - x_before) / dt`; the reward is the forward reward (inherited
weight 1.0 times the velocity) minus the control cost; `terminated` is the
literal `False` of line 58 and the returned truncation flag is the literal
`False` of line 84; the cost is `float(x_velocity > velocity_threshold)`
(line 66).  The task-cycle side effect is `env_cycle_step`. -/
def env_step (s : EnvState) (x_before x_after dt : ℚ) (action : List ℚ) :
    EnvState × StepResult :=
  let x_velocity := (x_after - x_before) / dt
  let fwd := 1 * x_velocity
  (env_cycle_step s,
    { reward := fwd - control_cost action,
      cost := if velocity_threshold < x_velocity then 1 else 0,
      terminated := false,
      truncated := false })

/-- The two independent clocks of the run: one environment `step` never
reads or writes the Regularizer's state, and the Regularizer's end-of-epoch
check never reads or writes the environment's cycle state.  This pairing
makes that frame condition a statement rather than a convention. -/
def sim_step_pair (r : RegState) (e : EnvState) : RegState × EnvState :=
  (r, env_cycle_step e)

/-! ### Anchor snapshots as heap clones (`save_old_params`, lines 481-482) -/

/-- A heap of parameter cells: tensor storage is a map from cell ids to
values, `hsize` the number of allocated cells.  The live actor parameters
are a fixed list of cell ids; in-place optimizer updates write through
those ids. -/
structure PHeap : Type where
  hsize : ℕ
  val : ℕ → ℚ

/-- `param.clone()`: allocate a fresh cell holding the current value of the
source cell; the fresh id is returned. -/
def clone_cell (h : PHeap) (src : ℕ) : PHeap × ℕ :=
  ({ hsize := h.hsize + 1,
     val := fun i => if i = h.hsize then h.val src else h.val i },
   h.hsize)

/-- `save_old_params(model)` (lines 481-482): an independently owned clone
of every parameter cell, in order; returns the extended heap and the list
of anchor cell ids. -/
def save_old_params (h : PHeap) (pids : List ℕ) : PHeap × List ℕ :=
  match pids with
  | [] => (h, [])
  | p :: rest =>
    let c := clone_cell h p
    let r := save_old_params c.1 rest
    (r.1, c.2 :: r.2)

/-- One in-place mutation of a parameter cell (an optimizer step writing
through a live parameter id). -/
def write_cell (h : PHeap) (i : ℕ) (v : ℚ) : PHeap :=
  { h with val := fun j => if j = i then v else h.val j }

/-- Any finite sequence of in-place mutations, applied left to right. -/
def write_cells (h : PHeap) (ws : List (ℕ × ℚ)) : PHeap :=
  ws.foldl (fun hh w => write_cell hh w.1 w.2) h

/-! ### Fisher-information estimation (`compute_fisher_info`, lines 462-479) -/

/-- `compute_fisher_info(data, policy)` (lines 462-479), one named entry:
for every stored `(obs, act)` pair the gradient of the log-probability of
the stored action under the current actor is taken (abstracted as the
function `g` from the pair to the gradient value of entry `n`); the
elementwise squares are accumulated over the pairs and the accumulated
tensor is divided by the pair count. -/
def fisher_entry {π : Type} (pairs : List π) (g : π → ℕ → ℚ) (n : ℕ) : ℚ :=
  ((pairs.map (fun p => g p n ^ 2)).sum) / pairs.length

/-! ### Helper lemmas -/

theorem zipWith_min_zipWith (f g : ℚ → ℚ → ℚ) :
    ∀ (l1 l2 : List ℚ),
      List.zipWith min (List.zipWith f l1 l2) (List.zipWith g l1 l2)
        = List.zipWith (fun a b => min (f a b) (g a b)) l1 l2
  | [], _ => by simp
  | _ :: _, [] => by simp
  | a :: l1, b :: l2 => by
    simp [List.zipWith, zipWith_min_zipWith f g l1 l2]

theorem sum_pos_of_mem_nonneg :
    ∀ (l : List ℚ), (∀ x ∈ l, 0 ≤ x) → ∀ x ∈ l, 0 < x → 0 < l.sum
  | [], _, x, hx, _ => by simp at hx
  | y :: l, h0, x, hx, hp => by
    rcases List.mem_cons.mp hx with h | h
    · subst h
      have hl : 0 ≤ l.sum := List.sum_nonneg (fun z hz => h0 z (List.mem_cons_of_mem _ hz))
      simpa using add_pos_of_pos_of_nonneg hp hl
    · have hy : 0 ≤ y := h0 y (List.mem_cons_self _ _)
      have hl : 0 < l.sum :=
        sum_pos_of_mem_nonneg l (fun z hz => h0 z (List.mem_cons_of_mem _ hz)) x h hp
      simpa using add_pos_of_nonneg_of_pos hy hl

/-! ### Claim C1 -/

/-- Claim C1: whenever the Regularizer's switch counter reaches
`steps_per_task` at the end of an epoch, the Fisher estimate is computed
from the very batch that the PPO update just drained from the Buffer:
although line 314's `buffer.get()` implicitly clears the storage (resets
the write position), the stored values persist, so the second
`buffer.get()` of line 449 yields the same epoch data.  The second
conjunct records that the drain does reset the write position. -/
theorem fisher_uses_just_drained_batch {τ : Type} (b : Buffer τ) (trigger : Bool)
    (h : trigger = true) :
    (epoch_tail b trigger).2 = some (epoch_tail b trigger).1 ∧ b.get.2.wpos = 0 := by
  subst h
  exact ⟨rfl, rfl⟩

/-- Witness for C1 at a concrete two-transition buffer with a full write
position, the state in which `main` drains it. -/
theorem fisher_uses_just_drained_batch_witness :
    (epoch_tail (Buffer.mk 2 (fun i => i) 2) true).2
        = some (epoch_tail (Buffer.mk 2 (fun i => i) 2) true).1 ∧
      (Buffer.mk 2 (fun i => (i : ℕ)) 2).get.2.wpos = 0 :=
  fisher_uses_just_drained_batch (Buffer.mk 2 (fun i => i) 2) true rfl

/-! ### Claim C6 -/

/-- Claim C6: for every minibatch of likelihood quotients and advantages
(all sign combinations included), the actor loss of lines 352-356 equals
the negated mean of the pointwise minimum of `r·adv` and
`clip(r, 0.8, 1.2)·adv`, exactly the spec's formula. -/
theorem actor_loss_selects_pointwise_min (rs advs : List ℚ) :
    actor_loss rs advs = actor_loss_spec rs advs := by
  show -meanQ (List.zipWith min (List.zipWith (fun r a => r * a) rs advs)
      (List.zipWith (fun r a => clampQ r (4 / 5) (6 / 5) * a) rs advs)) = _
  rw [zipWith_min_zipWith]
  rfl

/-! ### Claim C10 -/

/-- Claim C10: the environment's own `step` returns `terminated = False`
and `truncated = False` unconditionally (lines 58 and 84), and a cost that
is exactly 0 or exactly 1, equal to 1 precisely when the measured
x-velocity strictly exceeds the velocity threshold (line 66); hence the
collector's natural-termination bootstrap case can never arise from this
environment's own step. -/
theorem env_step_never_terminates (s : EnvState) (xb xa dt : ℚ) (action : List ℚ) :
    (env_step s xb xa dt action).2.terminated = false ∧
      (env_step s xb xa dt action).2.truncated = false ∧
      ((env_step s xb xa dt action).2.cost = 0 ∨ (env_step s xb xa dt action).2.cost = 1) ∧
      ((env_step s xb xa dt action).2.cost = 1 ↔ velocity_threshold < (xa - xb) / dt) := by
  by_cases hv : velocity_threshold < (xa - xb) / dt <;>
    simp [env_step, hv]

/-! ### Claim C7 -/

/-- Claim C7: the environment's task-cycle state machine.  Every `step`
increments the internal counter; exactly when the pre-step counter strictly
exceeds `TASK_LENGTH` the variant index advances circularly by one, the
counter resets to 0 (and is then incremented by that same step, ending at
1), the body-mass vector becomes the nominal masses scaled by the new
variant's multiplier, and a full environment reset is forced (the `resets`
counter grows); otherwise only the counter changes.  The third conjunct
states independence from the Regularizer: a simulation step leaves any
Regularizer state untouched. -/
theorem env_task_cycle_behaviour :
    (∀ s : EnvState, TASK_LENGTH < s.steps_since_change →
      env_cycle_step s =
        ⟨(s.current_task + 1) % TASK_CYCLE.length, 1,
          NOMINAL_MASSES.map
            (fun m => m * MULTIPLIERS (TASK_CYCLE.getD ((s.current_task + 1) % TASK_CYCLE.length) "")),
          s.resets + 1⟩) ∧
    (∀ s : EnvState, s.steps_since_change ≤ TASK_LENGTH →
      env_cycle_step s = { s with steps_since_change := s.steps_since_change + 1 }) ∧
    (∀ (r : RegState) (e : EnvState), (sim_step_pair r e).1 = r) := by
  refine ⟨fun s h => ?_, fun s h => ?_, fun r e => rfl⟩
  · simp [env_cycle_step, check_task, change_task, h]
  · have h2 : ¬ TASK_LENGTH < s.steps_since_change := not_lt.mpr h
    simp [env_cycle_step, check_task, h2]

/-- Witness for C7: a concrete step at counter 100001 (just past
`TASK_LENGTH`) from variant 0 advances to variant 1, ends with counter 1,
rescales the masses by the multiplier of "eighteen" and forces a reset. -/
theorem env_task_cycle_behaviour_witness :
    env_cycle_step ⟨0, 100001, NOMINAL_MASSES, 0⟩ =
      ⟨(0 + 1) % TASK_CYCLE.length, 1,
        NOMINAL_MASSES.map
          (fun m => m * MULTIPLIERS (TASK_CYCLE.getD ((0 + 1) % TASK_CYCLE.length) "")),
        0 + 1⟩ :=
  env_task_cycle_behaviour.1 ⟨0, 100001, NOMINAL_MASSES, 0⟩ (by decide)

/-! ### Claim C4 -/

/-- Claim C4 as stated is false at a concrete input: in an epoch of 2
rollout steps in which the slot truncates at step 0 and at no other step,
`buffer.finish_path` is invoked twice for the slot (once at the truncation,
once at the epoch end), not exactly once per epoch. -/
theorem finish_path_not_once_per_epoch :
    ¬ (finish_calls 2 (fun _ => false) (fun i => decide (i = 0)) = 1) := by
  decide

/-- Claim C4 amended: the three bootstrap rules hold with dispatch
priority — termination gives 0; truncation without termination gives the
critic's value at the final observation; epoch end with neither gives the
critic's value at the current observation — and `finish_path` runs exactly
once per slot per boundary event (a step with termination, truncation or
epoch end), hence exactly once per epoch when no mid-epoch episode
boundary occurs for that slot, and at least once in every nonempty epoch. -/
theorem boundary_dispatch_and_finish_calls :
    (∀ (e t : Bool) (vc vf : ℚ), boundary_value e true t vc vf = 0) ∧
    (∀ (e : Bool) (vc vf : ℚ), boundary_value e false true vc vf = vf) ∧
    (∀ (vc vf : ℚ), boundary_value true false false vc vf = vc) ∧
    (∀ (n : ℕ) (d t : ℕ → Bool), 1 ≤ n →
      (∀ i, i < n → d i = false ∧ t i = false) → finish_calls n d t = 1) ∧
    (∀ (n : ℕ) (d t : ℕ → Bool), 1 ≤ n → 1 ≤ finish_calls n d t) := by
  refine ⟨fun e t vc vf => rfl, fun e vc vf => ?_, fun vc vf => rfl, ?_, ?_⟩
  · cases e <;> rfl
  · intro n d t hn hmid
    obtain ⟨m, rfl⟩ := Nat.exists_eq_add_of_le hn
    unfold finish_calls
    have hcong : ∀ i ∈ List.range (1 + m),
        ((decide (i = 1 + m - 1) || d i || t i) = true
          ↔ (decide (i = 1 + m - 1)) = true) := by
      intro i hi
      have hd := (hmid i (List.mem_range.mp hi)).1
      have ht := (hmid i (List.mem_range.mp hi)).2
      simp [hd, ht]
    rw [List.countP_congr hcong]
    have hm : 1 + m = m + 1 := Nat.add_comm 1 m
    rw [hm, List.range_succ, List.countP_append]
    have hzero : (List.range m).countP (fun i => decide (i = m + 1 - 1)) = 0 := by
      rw [List.countP_eq_zero]
      intro a ha
      have := List.mem_range.mp ha
      simp only [Nat.add_sub_cancel, decide_eq_true_eq]
      omega
    rw [hzero]
    simp
  · intro n d t hn
    have hmem : n - 1 ∈ List.range n := List.mem_range.mpr (by omega)
    have hpos : 0 < finish_calls n d t := by
      unfold finish_calls
      rw [List.countP_pos_iff]
      exact ⟨n - 1, hmem, by simp⟩
    omega

/-- Witness for amended C4: a three-step epoch with no mid-epoch episode
boundary yields exactly one `finish_path` invocation. -/
theorem boundary_dispatch_and_finish_calls_witness :
    finish_calls 3 (fun _ => false) (fun _ => false) = 1 :=
  boundary_dispatch_and_finish_calls.2.2.2.1 3 (fun _ => false) (fun _ => false)
    (by decide) (fun i _ => ⟨rfl, rfl⟩)

/-! ### Claim C3 -/

/-- Claim C3 as stated is false at a concrete input: store the first
(Fisher, anchor) snapshot exactly as lines 454-455 do
(`fisher_matrices[t] = fisher; old_params_list[t] = old_params`) with a
recorded Fisher gradient of 1 (nonzero) for the single parameter, the
anchor being the clone of the current parameters; at the first gradient
step afterwards the parameters are still equal to the anchor, so the EWC
penalty is 0, not strictly positive. -/
theorem ewc_penalty_zero_at_first_step_after_snapshot :
    (fun _ : ℕ => (1 : ℚ)) 0 ≠ 0 ∧
      ewc_penalty (([none] : List (Option PMap)).set 0 (some (fun _ => 1)))
          (([none] : List (Option PMap)).set 0 (some (fun _ => 3)))
          [0] (fun _ => 3) = 0 := by
  constructor
  · norm_num
  · show (1 : ℚ) * ((3 : ℚ) - 3) ^ 2 + 0 + 0 = 0
    norm_num

/-- Claim C3 amended: the EWC penalty is exactly 0 at every gradient step
before any Fisher record exists; it is still exactly 0 at the first
gradient step after the first snapshot, because the live parameters then
still coincide with the freshly cloned anchor; and it is strictly positive
precisely once the penalty's premises obtain — some task with a live
record has a parameter whose Fisher weight is strictly positive and whose
current value differs from its anchor (all recorded Fisher weights being
non-negative, as they are squares). -/
theorem ewc_penalty_zero_then_positive :
    (∀ (fms ops : List (Option PMap)) (names : List ℕ) (θ : PMap),
      (∀ x ∈ fms, x = none) → ewc_penalty fms ops names θ = 0) ∧
    (∀ (fms ops : List (Option PMap)) (t : ℕ) (f : PMap) (names : List ℕ) (θ : PMap),
      (∀ x ∈ fms, x = none) →
      ewc_penalty (fms.set t (some f)) (ops.set t (some θ)) names θ = 0) ∧
    (∀ (fms ops : List (Option PMap)) (names : List ℕ) (θ : PMap)
      (i : ℕ) (f o : PMap) (n : ℕ),
      (hi : i < fms.length) → (hio : i < ops.length) →
      fms[i] = some f → ops[i] = some o →
      (∀ fj : PMap, some fj ∈ fms → ∀ m ∈ names, 0 ≤ fj m) →
      n ∈ names → 0 < f n → θ n ≠ o n →
      0 < ewc_penalty fms ops names θ) := by
  refine ⟨?_, ?_, ?_⟩
  · intro fms ops names θ hnone
    unfold ewc_penalty
    rw [List.sum_eq_zero]
    intro x hx
    obtain ⟨pr, hpr, rfl⟩ := List.mem_map.mp hx
    have h1 : pr.1 = none := hnone pr.1 (List.of_mem_zip hpr).1
    rw [h1]
  · intro fms ops t f names θ hnone
    unfold ewc_penalty
    rw [List.sum_eq_zero]
    intro x hx
    obtain ⟨pr, hpr, rfl⟩ := List.mem_map.mp hx
    obtain ⟨j, hj, hget⟩ := List.mem_iff_getElem.mp hpr
    have hj1 : j < (fms.set t (some f)).length := List.lt_length_left_of_zip hj
    have hj2 : j < (ops.set t (some θ)).length := List.lt_length_right_of_zip hj
    rw [List.getElem_zip] at hget
    subst hget
    by_cases hjt : j = t
    · subst hjt
      rw [List.getElem_set_self hj1, List.getElem_set_self hj2]
      show (names.map (fun m => f m * (θ m - θ m) ^ 2)).sum = 0
      rw [List.sum_eq_zero]
      intro y hy
      obtain ⟨m, _, rfl⟩ := List.mem_map.mp hy
      ring
    · have hjf : j < fms.length := by
        simpa using hj1
      rw [List.getElem_set_ne (fun h => hjt h.symm) hj1]
      have hnone2 : fms[j] = none := hnone _ (List.getElem_mem hjf)
      rw [hnone2]
  · intro fms ops names θ i f o n hi hio hf ho hnn hn hpos hne
    unfold ewc_penalty
    set contrib : Option PMap × Option PMap → ℚ := fun pr =>
      match pr.1, pr.2 with
      | some fj, some oj => (names.map (fun m => fj m * (θ m - oj m) ^ 2)).sum
      | _, _ => 0 with hcontrib
    have hnonneg : ∀ x ∈ (fms.zip ops).map contrib, 0 ≤ x := by
      intro x hx
      obtain ⟨pr, hpr, rfl⟩ := List.mem_map.mp hx
      rcases pr with ⟨a, b⟩
      rcases a with _ | fa
      · simp [hcontrib]
      · rcases b with _ | ob
        · simp [hcontrib]
        · have hfa : some fa ∈ fms := (List.of_mem_zip hpr).1
          show 0 ≤ (names.map (fun m => fa m * (θ m - ob m) ^ 2)).sum
          apply List.sum_nonneg
          intro y hy
          obtain ⟨m, hm, rfl⟩ := List.mem_map.mp hy
          exact mul_nonneg (hnn fa hfa m hm) (sq_nonneg _)
    have hzlen : i < (fms.zip ops).length := by
      rw [List.length_zip]
      omega
    have hget : (fms.zip ops)[i] = (fms[i], ops[i]) := List.getElem_zip
    have helem : contrib ((fms.zip ops)[i])
        = (names.map (fun m => f m * (θ m - o m) ^ 2)).sum := by
      rw [hget, hf, ho]
    have hterms : ∀ y ∈ names.map (fun m => f m * (θ m - o m) ^ 2), 0 ≤ y := by
      intro y hy
      obtain ⟨m, hm, rfl⟩ := List.mem_map.mp hy
      exact mul_nonneg (hnn f (hf ▸ List.getElem_mem hi) m hm) (sq_nonneg _)
    have hmem2 : f n * (θ n - o n) ^ 2 ∈ names.map (fun m => f m * (θ m - o m) ^ 2) :=
      List.mem_map_of_mem _ hn
    have hpos2 : 0 < f n * (θ n - o n) ^ 2 :=
      mul_pos hpos (pow_two_pos_of_ne_zero (sub_ne_zero.mpr hne))
    have hinner : 0 < (names.map (fun m => f m * (θ m - o m) ^ 2)).sum :=
      sum_pos_of_mem_nonneg _ hterms _ hmem2 hpos2
    have hmem : contrib ((fms.zip ops)[i]) ∈ (fms.zip ops).map contrib :=
      List.mem_map_of_mem _ (List.getElem_mem hzlen)
    exact sum_pos_of_mem_nonneg _ hnonneg _ hmem (helem ▸ hinner)

/-- Witness for amended C3: one live record with Fisher weight 2 at the
single parameter, anchor 4, current value 5 — the penalty is strictly
positive. -/
theorem ewc_penalty_zero_then_positive_witness :
    0 < ewc_penalty [some (fun _ => (2 : ℚ))] [some (fun _ => (4 : ℚ))] [0] (fun _ => 5) :=
  ewc_penalty_zero_then_positive.2.2 [some (fun _ => 2)] [some (fun _ => 4)] [0]
    (fun _ => 5) 0 (fun _ => 2) (fun _ => 4) 0 (by decide) (by decide) rfl rfl
    (by
      intro fj hfj m hm
      simp only [List.mem_singleton, Option.some_inj] at hfj
      subst hfj
      norm_num)
    (by simp) (by norm_num) (by norm_num)

/-! ### Claim C9 -/

/-- Claim C9: every entry of the Fisher record produced by
`compute_fisher_info` — the accumulated elementwise squares of the per-pair
gradients, divided by the pair count — is non-negative; and the store of
lines 454-455 (`fisher_matrices[current_task_num] = current_fisher`)
replaces the record at that task id and touches no other slot, so each task
id holds at most one live record. -/
theorem fisher_nonneg_and_record_replaced :
    (∀ (π : Type) (pairs : List π) (g : π → ℕ → ℚ) (n : ℕ),
      0 ≤ fisher_entry pairs g n) ∧
    (∀ (fms : List (Option PMap)) (t : ℕ) (f : PMap), t < fms.length →
      (fms.set t (some f)).getD t none = some f) ∧
    (∀ (fms : List (Option PMap)) (t j : ℕ) (f : PMap), j ≠ t →
      (fms.set t (some f)).getD j none = fms.getD j none) := by
  refine ⟨?_, ?_, ?_⟩
  · intro π pairs g n
    unfold fisher_entry
    apply div_nonneg
    · apply List.sum_nonneg
      intro y hy
      obtain ⟨p, _, rfl⟩ := List.mem_map.mp hy
      exact sq_nonneg _
    · exact Nat.cast_nonneg _
  · intro fms t f ht
    have ht2 : t < (fms.set t (some f)).length := by
      simpa using ht
    rw [List.getD_eq_getElem _ _ ht2]
    exact List.getElem_set_self ht2
  · intro fms t j f hne
    by_cases hj : j < fms.length
    · have hj2 : j < (fms.set t (some f)).length := by
        simpa using hj
      rw [List.getD_eq_getElem _ _ hj2, List.getD_eq_getElem _ _ hj]
      exact List.getElem_set_ne (fun h => hne h.symm) hj2
    · have hj1 : fms.length ≤ j := Nat.le_of_not_lt hj
      have hj2 : (fms.set t (some f)).length ≤ j := by
        simpa using hj1
      rw [List.getD_eq_default _ _ hj2, List.getD_eq_default _ _ hj1]

/-- Witness for C9: a concrete two-pair Fisher entry is non-negative, and
storing a record at slot 0 of a two-slot list puts exactly that record
there. -/
theorem fisher_nonneg_and_record_replaced_witness :
    0 ≤ fisher_entry [1, 2] (fun p n => (p : ℚ) - n) 0 ∧
      (([none, none] : List (Option PMap)).set 0 (some (fun _ => 1))).getD 0 none
        = some (fun _ => (1 : ℚ)) :=
  ⟨fisher_nonneg_and_record_replaced.1 ℕ [1, 2] (fun p n => (p : ℚ) - n) 0,
    fisher_nonneg_and_record_replaced.2.1 [none, none] 0 (fun _ => 1) (by decide)⟩

/-! ### Claim C5 -/

/-- Claim C5: the mean KL divergence against the pre-update distribution is
computed once per full pass over the minibatches (`klOf` is evaluated once
per iteration of `run_passes`, mirroring lines 390-396); if it exceeds
`target_kl` for the first time after pass `k` (within the `learning_iters`
budget), no further passes run — the final policy state is exactly `k`
applications of the pass body — and the recorded pass count
(`update_counts`) equals `k`. -/
theorem kl_early_stop_records_k {σ : Type} (pass_step : σ → σ) (klOf : σ → ℚ)
    (target : ℚ) (iters k : ℕ) (s : σ) (hk1 : 1 ≤ k) (hki : k ≤ iters)
    (hmid : ∀ j < k, 1 ≤ j → klOf (pass_step^[j] s) ≤ target)
    (hexc : target < klOf (pass_step^[k] s)) :
    run_passes pass_step klOf target iters s = (pass_step^[k] s, k) := by
  induction iters generalizing k s with
  | zero => omega
  | succ n ih =>
    match k, hk1 with
    | 1, _ =>
      have h1 : target < klOf (pass_step s) := by
        simpa [Function.iterate_one] using hexc
      simp only [run_passes, if_pos h1, Function.iterate_one]
    | h + 2, _ =>
      have hle : klOf (pass_step s) ≤ target := by
        have h2 := hmid 1 (by omega) (by omega)
        simpa [Function.iterate_one] using h2
      have hrec : run_passes pass_step klOf target n (pass_step s)
          = (pass_step^[h + 1] (pass_step s), h + 1) := by
        apply ih (h + 1) (pass_step s) (by omega) (by omega)
        · intro j hj hj1
          have h3 := hmid (j + 1) (by omega) (by omega)
          rwa [Function.iterate_succ_apply] at h3
        · rw [← Function.iterate_succ_apply]
          exact hexc
      simp only [run_passes, if_neg (not_lt.mpr hle), hrec,
        ← Function.iterate_succ_apply]

/-- Witness for C5: with the pass body incrementing a counter and the KL
readout equal to the counter, target 2, budget 5 passes: the KL first
exceeds the target after pass 3, the loop stops there and records 3. -/
theorem kl_early_stop_records_k_witness :
    run_passes (fun s => s + 1) (fun s => (s : ℚ)) 2 5 0 = ((fun s => s + 1)^[3] 0, 3) :=
  kl_early_stop_records_k (fun s => s + 1) (fun s => (s : ℚ)) 2 5 3 0
    (by decide) (by decide)
    (by
      intro j hj hj1
      interval_cases j <;> norm_num)
    (by norm_num)

/-! ### Claim C8 -/

theorem save_old_params_hsize :
    ∀ (pids : List ℕ) (h : PHeap),
      (save_old_params h pids).1.hsize = h.hsize + pids.length
  | [], h => by simp [save_old_params]
  | p :: rest, h => by
    show (save_old_params (clone_cell h p).1 rest).1.hsize = _
    rw [save_old_params_hsize rest (clone_cell h p).1]
    simp [clone_cell]
    omega

theorem save_old_params_preserves :
    ∀ (pids : List ℕ) (h : PHeap) (i : ℕ), i < h.hsize →
      (save_old_params h pids).1.val i = h.val i
  | [], _, _, _ => rfl
  | p :: rest, h, i, hi => by
    show (save_old_params (clone_cell h p).1 rest).1.val i = _
    rw [save_old_params_preserves rest (clone_cell h p).1 i
      (by simp [clone_cell]; omega)]
    show (if i = h.hsize then h.val p else h.val i) = h.val i
    rw [if_neg (Nat.ne_of_lt hi)]

theorem save_old_params_fresh :
    ∀ (pids : List ℕ) (h : PHeap) (a : ℕ),
      a ∈ (save_old_params h pids).2 → h.hsize ≤ a
  | [], _, _, ha => by simp [save_old_params] at ha
  | p :: rest, h, a, ha => by
    rcases List.mem_cons.mp ha with h1 | h1
    · subst h1
      exact Nat.le_refl _
    · have h2 := save_old_params_fresh rest (clone_cell h p).1 a h1
      simp only [clone_cell] at h2
      omega

theorem save_old_params_len :
    ∀ (pids : List ℕ) (h : PHeap),
      (save_old_params h pids).2.length = pids.length
  | [], _ => rfl
  | p :: rest, h => by
    show (save_old_params (clone_cell h p).1 rest).2.length + 1 = _
    rw [save_old_params_len rest (clone_cell h p).1]
    rfl

theorem save_old_params_vals :
    ∀ (pids : List ℕ) (h : PHeap), (∀ p ∈ pids, p < h.hsize) →
      ∀ k, k < pids.length →
        (save_old_params h pids).1.val ((save_old_params h pids).2.getD k 0)
          = h.val (pids.getD k 0)
  | [], _, _, k, hk => by simp at hk
  | p :: rest, h, hv, 0, _ => by
    show (save_old_params (clone_cell h p).1 rest).1.val h.hsize = h.val p
    rw [save_old_params_preserves rest (clone_cell h p).1 h.hsize
      (by simp [clone_cell])]
    show (if h.hsize = h.hsize then h.val p else h.val h.hsize) = h.val p
    rw [if_pos rfl]
  | p :: rest, h, hv, k + 1, hk => by
    have hv2 : ∀ q ∈ rest, q < (clone_cell h p).1.hsize := by
      intro q hq
      have := hv q (List.mem_cons_of_mem _ hq)
      simp only [clone_cell]
      omega
    have hk2 : k < rest.length := by
      simpa using hk
    show (save_old_params (clone_cell h p).1 rest).1.val
        ((save_old_params (clone_cell h p).1 rest).2.getD k 0)
      = h.val (rest.getD k 0)
    rw [save_old_params_vals rest (clone_cell h p).1 hv2 k hk2]
    have hmem : rest.getD k 0 ∈ rest := by
      rw [List.getD_eq_getElem _ _ hk2]
      exact List.getElem_mem hk2
    have hlt : rest.getD k 0 < h.hsize := hv _ (List.mem_cons_of_mem _ hmem)
    show (if rest.getD k 0 = h.hsize then h.val p else h.val (rest.getD k 0)) = _
    rw [if_neg (Nat.ne_of_lt hlt)]

theorem write_cells_preserves :
    ∀ (ws : List (ℕ × ℚ)) (h2 : PHeap) (a : ℕ), (∀ w ∈ ws, w.1 ≠ a) →
      (write_cells h2 ws).val a = h2.val a
  | [], _, _, _ => rfl
  | w :: ws, h2, a, hw => by
    show (write_cells (write_cell h2 w.1 w.2) ws).val a = _
    rw [write_cells_preserves ws (write_cell h2 w.1 w.2) a
      (fun u hu => hw u (List.mem_cons_of_mem _ hu))]
    show (if a = w.1 then w.2 else h2.val a) = h2.val a
    exact if_neg (fun hh => (hw w (List.mem_cons_self _ _)) hh.symm)

/-- Claim C8: `save_old_params` (lines 481-482) clones every live actor
parameter: the anchor cells are fresh, their values equal the live
parameter values at the snapshot instant (which the snapshot itself leaves
untouched), and any subsequent sequence of in-place writes through the live
parameter ids leaves every anchor cell's value unchanged — independent
storage, not aliasing. -/
theorem anchor_snapshot_independent (h : PHeap) (pids : List ℕ)
    (hv : ∀ p ∈ pids, p < h.hsize) :
    ((save_old_params h pids).2.length = pids.length) ∧
    (∀ k, k < pids.length →
      (save_old_params h pids).1.val ((save_old_params h pids).2.getD k 0)
        = h.val (pids.getD k 0)) ∧
    (∀ p ∈ pids, (save_old_params h pids).1.val p = h.val p) ∧
    (∀ ws : List (ℕ × ℚ), (∀ w ∈ ws, w.1 ∈ pids) →
      ∀ a ∈ (save_old_params h pids).2,
        (write_cells (save_old_params h pids).1 ws).val a
          = (save_old_params h pids).1.val a) := by
  refine ⟨save_old_params_len pids h, save_old_params_vals pids h hv, ?_, ?_⟩
  · intro p hp
    exact save_old_params_preserves pids h p (hv p hp)
  · intro ws hws a ha
    apply write_cells_preserves
    intro w hw
    have h1 : w.1 < h.hsize := hv w.1 (hws w hw)
    have h2 : h.hsize ≤ a := save_old_params_fresh pids h a ha
    omega

/-- Witness for C8: two live cells holding 0 and 1; after the snapshot an
in-place write of 99 through live cell 0 leaves the first anchor's value
unchanged. -/
theorem anchor_snapshot_independent_witness :
    (write_cells (save_old_params ⟨2, fun i => (i : ℚ)⟩ [0, 1]).1 [(0, 99)]).val
        ((save_old_params ⟨2, fun i => (i : ℚ)⟩ [0, 1]).2.getD 0 0)
      = (save_old_params ⟨2, fun i => (i : ℚ)⟩ [0, 1]).1.val
        ((save_old_params ⟨2, fun i => (i : ℚ)⟩ [0, 1]).2.getD 0 0) :=
  (anchor_snapshot_independent ⟨2, fun i => (i : ℚ)⟩ [0, 1] (by decide)).2.2.2
    [(0, 99)] (by decide) _ (by decide)

/-! ### Claim C2 -/

theorem ceil_div_le_iff (S T m : ℕ) (hS : 1 ≤ S) :
    (T + S - 1) / S ≤ m ↔ T ≤ m * S := by
  rw [Nat.div_le_iff_le_mul_add_pred (by omega : 0 < S), Nat.mul_comm S m]
  omega

/-- The Regularizer clock in closed form: with `p = ceil(T / S)`, after `N`
epochs the switch counter holds `(N mod p) * S`, the task index is
`(N / p) mod num_tasks`, and the task index has advanced exactly `N / p`
times, because the counter resets to 0 at a switch rather than carrying
the excess over `T`. -/
theorem reg_run_closed (S T nt : ℕ) (hS : 1 ≤ S) (hT : 1 ≤ T) (N : ℕ) :
    reg_run S T nt N =
      ⟨(N / ((T + S - 1) / S)) % nt, (N % ((T + S - 1) / S)) * S,
        N / ((T + S - 1) / S)⟩ := by
  set p := (T + S - 1) / S with hpdef
  have hp : 1 ≤ p := by
    by_contra hcon
    have h0 : p ≤ 0 := by omega
    have h1 : T ≤ 0 * S := (ceil_div_le_iff S T 0 hS).mp h0
    simp at h1
    omega
  induction N with
  | zero => simp [reg_run]
  | succ N ih =>
    have hmod : N % p < p := Nat.mod_lt _ (by omega)
    have hdm : p * (N / p) + N % p = N := Nat.div_add_mod N p
    have hstep : reg_run S T nt (N + 1) = reg_epoch_end S T nt (reg_run S T nt N) := by
      rw [reg_run, reg_run, Function.iterate_succ_apply']
    rw [hstep, ih]
    unfold reg_epoch_end
    by_cases hc : T ≤ (N % p) * S + S
    · rw [if_pos hc]
      have hple : p ≤ N % p + 1 := by
        apply (ceil_div_le_iff S T (N % p + 1) hS).mpr
        rw [Nat.succ_mul]
        exact hc
      have hNp : N % p = p - 1 := by omega
      have h2 : N + 1 = p * (N / p + 1) := by
        rw [Nat.mul_succ]
        omega
      have hdiv : (N + 1) / p = N / p + 1 := by
        rw [h2, Nat.mul_div_cancel_left _ (by omega : 0 < p)]
      have hmodz : (N + 1) % p = 0 := by
        rw [h2]
        exact Nat.mul_mod_right p _
      rw [hdiv, hmodz]
      simp [RegState.mk.injEq, Nat.mod_add_mod]
    · rw [if_neg hc]
      have hplt : N % p + 1 < p := by
        have h1 : ¬ p ≤ N % p + 1 := by
          intro hh
          apply hc
          have h3 := (ceil_div_le_iff S T (N % p + 1) hS).mp hh
          rwa [Nat.succ_mul] at h3
        omega
      have h2 : N + 1 = p * (N / p) + (N % p + 1) := by omega
      have hdiv : (N + 1) / p = N / p := by
        rw [h2, Nat.mul_add_div (by omega : 0 < p), Nat.div_eq_of_lt hplt, Nat.add_zero]
      have hmod2 : (N + 1) % p = N % p + 1 := by
        rw [h2, Nat.mul_add_mod, Nat.mod_eq_of_lt hplt]
      rw [hdiv, hmod2]
      simp [RegState.mk.injEq, Nat.succ_mul]

/-- Claim C2 as stated is false at a concrete input: with
`steps_per_epoch = 3`, `steps_per_task = 4` and 5 tasks, after 3 epochs the
task index has advanced once (the counter resets to 0 at the switch after
epoch 2, so epoch 3 restarts from 0), whereas floor(3·3 / 4) = 2. -/
theorem task_advances_not_floor_ns_over_t :
    ¬ ((reg_run 3 4 5 3).switches = 3 * 3 / 4) := by
  decide

/-- Claim C2 amended: because the switch counter resets to 0 on a switch
instead of keeping the excess over `steps_per_task`, after `N` epochs the
task index has advanced exactly `N / ceil(T / S)` times; this coincides
with the claimed `floor(N·S / T)` exactly when `S` divides `T` (in
particular in the spec's boundary case "T exactly divisible by S"). -/
theorem task_advances_n_div_ceil (S T nt N : ℕ) (hS : 1 ≤ S) (hT : 1 ≤ T) :
    (reg_run S T nt N).switches = N / ((T + S - 1) / S) ∧
      (S ∣ T → (reg_run S T nt N).switches = N * S / T) := by
  constructor
  · rw [reg_run_closed S T nt hS hT N]
  · rintro ⟨m, rfl⟩
    rw [reg_run_closed S (S * m) nt hS hT N]
    have hm : 1 ≤ m := by
      rcases Nat.eq_zero_or_pos m with h0 | h1
      · subst h0
        simp at hT
      · exact h1
    have hceil : (S * m + S - 1) / S = m := by
      have h1 : S * m + S - 1 = S * m + (S - 1) := by omega
      rw [h1, Nat.mul_add_div (by omega : 0 < S), Nat.div_eq_of_lt (by omega), Nat.add_zero]
    have hdivs : N * S / (S * m) = N / m := by
      rw [Nat.mul_comm N S, Nat.mul_div_mul_left N m (by omega : 0 < S)]
    rw [hceil, hdivs]

/-- Witness for amended C2: `S = 2`, `T = 4`, 5 tasks, 5 epochs — the task
index has advanced `5 / ceil(4/2) = 2` times, and since 2 divides 4 this
equals `5·2 / 4 = 2`. -/
theorem task_advances_n_div_ceil_witness :
    (reg_run 2 4 5 5).switches = 5 / ((4 + 2 - 1) / 2) ∧
      (2 ∣ 4 → (reg_run 2 4 5 5).switches = 5 * 2 / 4) :=
  task_advances_n_div_ceil 2 4 5 5 (by decide) (by decide)

end SafeContinual
